import Mathlib

/-!
Verification of the LIP refinement algorithm (`src/main.py`, function `lip`).

The source is a single PyTorch function.  We embed it shallowly:

* a tensor of shape `(a, b)` becomes `Matrix (Fin a) (Fin b) K` over a linear
  ordered field `K`; the float arithmetic of the source is modeled by exact
  field arithmetic (instantiated at `ℝ` for the analytic statements and at
  `ℚ` for executable witnesses);
* `torch.linalg.svd(W_noisy, full_matrices=False)` is an external dense
  linear-algebra kernel (LAPACK); its output is modeled by explicit
  parameters `U`, `S`, `V` of inner dimension `m` (the source sets
  `V = Vh.transpose(-2, -1)`), together with the predicate `IsSVD` stating
  the contract the kernel guarantees: `m = min q l` (economy size),
  `W_noisy = U * diagonal S * Vᵀ`, orthonormal columns, and non-negative
  singular values sorted in descending order;
* Python column slicing `M[:, :k]` / `M[:, k:]` is embedded by `takeCols` /
  `dropCols` driven by `sliceLen`, which reproduces Python slice semantics
  exactly: a non-negative bound is clamped to the axis length, a negative
  bound counts from the end (clamped at zero);
* `torch.diag` on a vector is `Matrix.diagonal`; the advanced indexing
  `A[diag_idx, diag_idx]` with `diag_idx = arange(A.shape[0])` reads the
  diagonal, so `sigma_refined i = A i i / B i i`.

Everything after the SVD call is translated line by line from the source.
-/

set_option autoImplicit false

namespace LIP

open Matrix

/-- Matrices over the scalar field `K`, indexed the way the torch shapes are. -/
abbrev Mat (K : Type) (a b : ℕ) := Matrix (Fin a) (Fin b) K

/-- Length of the Python slice `[:k]` of an axis of length `m`
(`k` may be negative or exceed `m`; Python clamps). -/
def sliceLen (m : ℕ) (k : ℤ) : ℕ :=
  if 0 ≤ k then min k.toNat m else ((m : ℤ) + k).toNat

section Stages

variable {K : Type} [LinearOrderedField K] {q l n m : ℕ}

/-- Python `M[:, :c]` for a matrix with `b` columns. -/
def takeCols {a b : ℕ} (M : Mat K a b) (c : ℕ) : Mat K a (min c b) :=
  fun i j => M i ⟨j.val, lt_of_lt_of_le j.isLt (min_le_right c b)⟩

/-- Python `M[:, c:]` for a matrix with `b` columns. -/
def dropCols {a b : ℕ} (M : Mat K a b) (c : ℕ) : Mat K a (b - c) :=
  fun i j => M i ⟨c + j.val, by have := j.isLt; omega⟩

/-- Python `S[:c]` for a vector of length `b`. -/
def takeVec {b : ℕ} (S : Fin b → K) (c : ℕ) : Fin (min c b) → K :=
  fun j => S ⟨j.val, lt_of_lt_of_le j.isLt (min_le_right c b)⟩

/-- Python `S[c:]` for a vector of length `b` (used to state how the dropped
singular values relate to the full factorization; the source discards them). -/
def dropVec {b : ℕ} (S : Fin b → K) (c : ℕ) : Fin (b - c) → K :=
  fun j => S ⟨c + j.val, by have := j.isLt; omega⟩

/-- Source line `U_k = U[:, :k]` (`c` is the already-resolved slice length). -/
def U_k (U : Mat K q m) (c : ℕ) : Mat K q (min c m) :=
  takeCols U c

/-- Source line `S_k = torch.diag(S[:k])`. -/
def S_k (S : Fin m → K) (c : ℕ) : Matrix (Fin (min c m)) (Fin (min c m)) K :=
  Matrix.diagonal (takeVec S c)

/-- Source line `V_k = V[:, :k]`. -/
def V_k (V : Mat K l m) (c : ℕ) : Mat K l (min c m) :=
  takeCols V c

/-- Source line `W_k = U_k @ S_k @ V_k.t()`. -/
def W_k (U : Mat K q m) (S : Fin m → K) (V : Mat K l m) (c : ℕ) : Mat K q l :=
  U_k U c * S_k S c * (V_k V c)ᵀ

/-- Source line `U_l = U[:, k:]`. -/
def U_l (U : Mat K q m) (c : ℕ) : Mat K q (m - c) :=
  dropCols U c

/-- Source line `V_l = V[:, k:]`. -/
def V_l (V : Mat K l m) (c : ℕ) : Mat K l (m - c) :=
  dropCols V c

/-- Source line `residual = Y - X @ W_k`. -/
def residual (U : Mat K q m) (S : Fin m → K) (V : Mat K l m)
    (X : Mat K n q) (Y : Mat K n l) (c : ℕ) : Mat K n l :=
  Y - X * W_k U S V c

/-- Source line `A = U_l.t() @ (X.t() @ residual) @ V_l`
(Python `@` associates to the left). -/
def Amat (U : Mat K q m) (S : Fin m → K) (V : Mat K l m)
    (X : Mat K n q) (Y : Mat K n l) (c : ℕ) :
    Matrix (Fin (m - c)) (Fin (m - c)) K :=
  (U_l U c)ᵀ * (Xᵀ * residual U S V X Y c) * V_l V c

/-- Source line `B = U_l.t() @ (X.t() @ (X @ U_l))`. -/
def Bmat (X : Mat K n q) (U : Mat K q m) (c : ℕ) :
    Matrix (Fin (m - c)) (Fin (m - c)) K :=
  (U_l U c)ᵀ * (Xᵀ * (X * U_l U c))

/-- Source line `sigma_refined = A[diag_idx, diag_idx] / B[diag_idx, diag_idx]`:
an elementwise, unguarded division of the two diagonals.  (In torch a zero
`B` diagonal entry silently yields `inf`/`nan` here; the embedding uses the
field's total division, the same unguarded expression.) -/
def sigma_refined (U : Mat K q m) (S : Fin m → K) (V : Mat K l m)
    (X : Mat K n q) (Y : Mat K n l) (c : ℕ) : Fin (m - c) → K :=
  fun i => Amat U S V X Y c i i / Bmat X U c i i

/-- Source line `S_l_refined = torch.diag(sigma_refined)`. -/
def S_l_refined (U : Mat K q m) (S : Fin m → K) (V : Mat K l m)
    (X : Mat K n q) (Y : Mat K n l) (c : ℕ) :
    Matrix (Fin (m - c)) (Fin (m - c)) K :=
  Matrix.diagonal (sigma_refined U S V X Y c)

/-- Source line `W_refined = W_k + U_l @ S_l_refined @ V_l.t()`. -/
def W_refined (U : Mat K q m) (S : Fin m → K) (V : Mat K l m)
    (X : Mat K n q) (Y : Mat K n l) (c : ℕ) : Mat K q l :=
  W_k U S V c + U_l U c * S_l_refined U S V X Y c * (V_l V c)ᵀ

/-- The whole function `lip` after the SVD call: the integer argument `k`
enters only through Python slicing, i.e. through `sliceLen`. -/
def lip (U : Mat K q m) (S : Fin m → K) (V : Mat K l m)
    (X : Mat K n q) (Y : Mat K n l) (k : ℤ) : Mat K q l :=
  W_refined U S V X Y (sliceLen m k)

/-- Contract of `torch.linalg.svd(W_noisy, full_matrices=False)` followed by
`V = Vh.transpose(-2, -1)`: an exact economy-size singular value
decomposition with orthonormal columns and descending non-negative
singular values. -/
structure IsSVD (W : Mat K q l) (U : Mat K q m) (S : Fin m → K)
    (V : Mat K l m) : Prop where
  msize : m = min q l
  factor : W = U * Matrix.diagonal S * Vᵀ
  orthU : Uᵀ * U = 1
  orthV : Vᵀ * V = 1
  nonneg : ∀ i, 0 ≤ S i
  sorted : ∀ i j : Fin m, i ≤ j → S j ≤ S i

end Stages

section TermDefs

variable {K : Type} [LinearOrderedField K] {q l n m : ℕ}

/-- The summand of the rank-one expansion of `U * diagonal S * Vᵀ`, as a
function of a natural index (zero beyond the number of singular values);
used to relate slices of the factors across different slice lengths. -/
def svdTerm (U : Mat K q m) (S : Fin m → K) (V : Mat K l m)
    (a : Fin q) (b : Fin l) : ℕ → K :=
  fun t => if h : t < m then U a ⟨t, h⟩ * (S ⟨t, h⟩ * V b ⟨t, h⟩) else 0

end TermDefs

section SpecForms

variable {K : Type} [LinearOrderedField K] {q l n m : ℕ}

/-- The spec's formula for the cross-energy matrix, written with the spec's
grouping `U_lᵗ · (Xᵗ · residual) · V_l`; compared against the source's `Amat`
for the refinement claim. -/
def AmatSpec (U : Mat K q m) (S : Fin m → K) (V : Mat K l m)
    (X : Mat K n q) (Y : Mat K n l) (c : ℕ) :
    Matrix (Fin (m - c)) (Fin (m - c)) K :=
  (U_l U c)ᵀ * ((Xᵀ * residual U S V X Y c) * V_l V c)

/-- The spec's formula for the feature-energy matrix `U_lᵗ · (Xᵗ · X) · U_l`;
compared against the source's `Bmat` for the refinement claim. -/
def BmatSpec (X : Mat K n q) (U : Mat K q m) (c : ℕ) :
    Matrix (Fin (m - c)) (Fin (m - c)) K :=
  (U_l U c)ᵀ * (Xᵀ * X) * U_l U c

end SpecForms

section NormDefs

variable {K : Type} [LinearOrderedField K]

/-- Squared Frobenius norm (the spec's optimality criterion; comparing squared
norms is equivalent to comparing norms since both are non-negative). -/
def frobSq {a b : ℕ} (M : Mat K a b) : K := ∑ i, ∑ j, (M i j)^2

/-- A finite vector extended by zeros to a function on `ℕ` (bridging device
for sums over differently sliced index types). -/
def padVec {b : ℕ} (S : Fin b → K) : ℕ → K :=
  fun t => if h : t < b then S ⟨t, h⟩ else 0

end NormDefs

section ConcreteInputs

/-- Concrete 1×1 input used by witnesses: the factor `U` of the SVD `1 = 1·1·1ᵀ`. -/
def Uw : Mat ℚ 1 1 := fun _ _ => 1

/-- Concrete 1×1 input used by witnesses: the singular value vector `(1)`. -/
def Sw : Fin 1 → ℚ := fun _ => 1

/-- Concrete 1×1 input used by witnesses: the factor `V`. -/
def Vw : Mat ℚ 1 1 := fun _ _ => 1

/-- Concrete 1×1 input used by witnesses: the feature matrix `X`. -/
def Xw : Mat ℚ 1 1 := fun _ _ => 1

/-- Concrete 1×1 input used by witnesses: the label matrix `Y`. -/
def Yw : Mat ℚ 1 1 := fun _ _ => 1

/-- Concrete 1×1 input used by witnesses: the noisy weight matrix, whose exact
SVD is `Uw, Sw, Vw`. -/
def Ww : Mat ℚ 1 1 := fun _ _ => 1

end ConcreteInputs

section MoreConcreteDefs

/-- Concrete degenerate input for C2: a zero feature matrix, so the feature
energy along the (single) residual axis vanishes. -/
def Xz : Mat ℚ 1 1 := 0

/-- The environment of tensors visible to a caller of `lip`: the three input
tensors (the rank `k` is a Python int, not a tensor). -/
structure CallState (K : Type) (q l n : ℕ) : Type where
  W_noisy : Mat K q l
  X : Mat K n q
  Y : Mat K n l

/-- A call of `lip` as seen by the caller: it returns the environment it was
given together with the fresh result matrix.  Every torch operation in the
source (`svd`, `transpose`, slicing, `diag`, `@`, `-`, `/`, `arange`, advanced
indexing) allocates a fresh tensor — none is an in-place `_`-suffixed op and
no statement assigns into an input — so the embedded call only reads the
environment. -/
def lipCall {K : Type} [LinearOrderedField K] {q l n m : ℕ}
    (s : CallState K q l n) (U : Mat K q m) (S : Fin m → K) (V : Mat K l m)
    (k : ℤ) : CallState K q l n × Mat K q l :=
  (s, lip U S V s.X s.Y k)

/-- Concrete 1×1 real input for the C6 witness: the factor `U`. -/
def Ur : Mat ℝ 1 1 := fun _ _ => 1

/-- Concrete 1×1 real input for the C6 witness: the singular values. -/
def Sr : Fin 1 → ℝ := fun _ => 1

/-- Concrete 1×1 real input for the C6 witness: the factor `V`. -/
def Vr : Mat ℝ 1 1 := fun _ _ => 1

/-- Concrete 1×1 real input for the C6 witness: the noisy weight matrix. -/
def Wr : Mat ℝ 1 1 := fun _ _ => 1

end MoreConcreteDefs

theorem sliceLen_le (m : ℕ) (k : ℤ) : sliceLen m k ≤ m := by
  unfold sliceLen
  split
  · exact min_le_right _ _
  · omega

theorem sliceLen_coe (m k : ℕ) (hk : k ≤ m) : sliceLen m (k : ℤ) = k := by
  simp [sliceLen, min_eq_left hk]

theorem sliceLen_self (m : ℕ) : sliceLen m (m : ℤ) = m :=
  sliceLen_coe m m le_rfl

theorem sliceLen_of_lt (m : ℕ) (k : ℤ) (hk : (m : ℤ) < k) : sliceLen m k = m := by
  unfold sliceLen
  rw [if_pos (by omega)]
  omega

section Bridge

variable {K : Type} [LinearOrderedField K] {q l n m : ℕ}

theorem triple_apply {a b s : ℕ} (P : Mat K a s) (D : Fin s → K) (Q : Mat K b s)
    (i : Fin a) (j : Fin b) :
    (P * Matrix.diagonal D * Qᵀ) i j = ∑ t : Fin s, P i t * (D t * Q j t) := by
  rw [Matrix.mul_assoc, Matrix.mul_apply]
  exact Finset.sum_congr rfl fun t _ => by
    rw [Matrix.mul_apply]
    rw [Finset.sum_eq_single t (fun r _ hr => by
      simp [Matrix.diagonal_apply_ne' _ hr]) (by simp)]
    rw [Matrix.diagonal_apply_eq, Matrix.transpose_apply]

theorem W_k_apply (U : Mat K q m) (S : Fin m → K) (V : Mat K l m) (c : ℕ)
    (a : Fin q) (b : Fin l) :
    W_k U S V c a b = ∑ t ∈ Finset.range (min c m), svdTerm U S V a b t := by
  rw [← Fin.sum_univ_eq_sum_range (svdTerm U S V a b) (min c m)]
  simp only [W_k, S_k]
  rw [triple_apply]
  refine Finset.sum_congr rfl fun t _ => ?_
  have ht : (t : ℕ) < m := lt_of_lt_of_le t.isLt (min_le_right _ _)
  simp [svdTerm, ht, U_k, V_k, takeCols, takeVec]

theorem tail_apply (U : Mat K q m) (S : Fin m → K) (V : Mat K l m) (c : ℕ)
    (a : Fin q) (b : Fin l) :
    (U_l U c * Matrix.diagonal (dropVec S c) * (V_l V c)ᵀ) a b
      = ∑ t ∈ Finset.range (m - c), svdTerm U S V a b (c + t) := by
  rw [← Fin.sum_univ_eq_sum_range (fun t => svdTerm U S V a b (c + t)) (m - c)]
  rw [triple_apply]
  refine Finset.sum_congr rfl fun t _ => ?_
  have ht : c + (t : ℕ) < m := by have := t.isLt; omega
  simp [svdTerm, ht, U_l, V_l, dropCols, dropVec]

theorem full_apply (U : Mat K q m) (S : Fin m → K) (V : Mat K l m)
    (a : Fin q) (b : Fin l) :
    (U * Matrix.diagonal S * Vᵀ) a b = ∑ t ∈ Finset.range m, svdTerm U S V a b t := by
  rw [← Fin.sum_univ_eq_sum_range (svdTerm U S V a b) m]
  rw [triple_apply]
  refine Finset.sum_congr rfl fun t _ => ?_
  simp [svdTerm, t.isLt]

/-- The full factorization splits exactly into the preserved rank-`c` part and
the tail built from the dropped singular values. -/
theorem svd_split {W : Mat K q l} {U : Mat K q m} {S : Fin m → K}
    {V : Mat K l m} (hW : W = U * Matrix.diagonal S * Vᵀ)
    (c : ℕ) (hc : c ≤ m) :
    W = W_k U S V c + U_l U c * Matrix.diagonal (dropVec S c) * (V_l V c)ᵀ := by
  ext a b
  rw [Matrix.add_apply, W_k_apply, tail_apply, hW, full_apply]
  rw [min_eq_left hc]
  rw [← Finset.sum_Ico_eq_sum_range (svdTerm U S V a b) c m]
  rw [Finset.range_eq_Ico, ← Finset.sum_Ico_consecutive (svdTerm U S V a b)
    (Nat.zero_le c) hc]

theorem middle_zero {a b r : ℕ} (hr : r = 0) (P : Mat K a r)
    (D : Matrix (Fin r) (Fin r) K) (Q : Mat K b r) : P * D * Qᵀ = 0 := by
  subst hr
  ext i j
  rw [Matrix.mul_apply]
  simp

theorem takeCols_transpose_mul_dropCols {a b : ℕ} (M : Mat K a b) (c : ℕ)
    (hM : Mᵀ * M = 1) : (takeCols M c)ᵀ * dropCols M c = 0 := by
  ext i j
  have hik : (i : ℕ) < c := lt_of_lt_of_le i.isLt (min_le_left c b)
  have hib : (i : ℕ) < b := lt_of_lt_of_le i.isLt (min_le_right c b)
  have hjb : c + (j : ℕ) < b := by have := j.isLt; omega
  have h1 : (Mᵀ * M) ⟨(i : ℕ), hib⟩ ⟨c + (j : ℕ), hjb⟩ = 0 := by
    rw [hM, Matrix.one_apply_ne (Fin.ne_of_val_ne (show (i : ℕ) ≠ c + (j : ℕ) by omega))]
  rw [Matrix.mul_apply] at h1 ⊢
  rw [Matrix.zero_apply, ← h1]
  exact Finset.sum_congr rfl fun r _ => by
    simp [takeCols, dropCols, Matrix.transpose_apply]

end Bridge

section Frobenius

variable {K : Type} [LinearOrderedField K]

theorem frobSq_eq_trace {a b : ℕ} (M : Mat K a b) :
    frobSq M = Matrix.trace (Mᵀ * M) := by
  rw [frobSq, Matrix.trace, Finset.sum_comm]
  refine Finset.sum_congr rfl fun j _ => ?_
  rw [Matrix.diag_apply, Matrix.mul_apply]
  refine Finset.sum_congr rfl fun i _ => ?_
  rw [Matrix.transpose_apply, sq]

theorem frobSq_nonneg {a b : ℕ} (M : Mat K a b) : 0 ≤ frobSq M :=
  Finset.sum_nonneg fun _ _ => Finset.sum_nonneg fun _ _ => sq_nonneg _

theorem trace_transpose_mul_self_nonneg {a b : ℕ} (M : Mat K a b) :
    0 ≤ Matrix.trace (Mᵀ * M) :=
  frobSq_eq_trace M ▸ frobSq_nonneg M

theorem diag_transpose_mul_self_nonneg {a b : ℕ} (M : Mat K a b) (j : Fin b) :
    0 ≤ (Mᵀ * M) j j := by
  rw [Matrix.mul_apply]
  exact Finset.sum_nonneg fun i _ => by
    rw [Matrix.transpose_apply]
    exact mul_self_nonneg _

/-- A matrix equal to `Pᵀ * P` is symmetric. -/
theorem symm_of_eq_transpose_mul_self {a : ℕ} {P : Matrix (Fin a) (Fin a) K}
    (hP : P = Pᵀ * P) : Pᵀ = P := by
  conv_lhs => rw [hP]
  rw [Matrix.transpose_mul, Matrix.transpose_transpose, ← hP]

/-- A matrix equal to `Pᵀ * P` is idempotent. -/
theorem idem_of_eq_transpose_mul_self {a : ℕ} {P : Matrix (Fin a) (Fin a) K}
    (hP : P = Pᵀ * P) : P * P = P := by
  nth_rewrite 1 [← symm_of_eq_transpose_mul_self hP]
  exact hP.symm

/-- The complement `1 - P` of a symmetric idempotent is again of the form
`Qᵀ * Q`. -/
theorem compl_eq_transpose_mul_self {a : ℕ} {P : Matrix (Fin a) (Fin a) K}
    (hP : P = Pᵀ * P) : (1 - P) = (1 - P)ᵀ * (1 - P) := by
  rw [Matrix.transpose_sub, Matrix.transpose_one, symm_of_eq_transpose_mul_self hP]
  simp only [Matrix.sub_mul, Matrix.mul_sub, Matrix.one_mul, Matrix.mul_one,
    idem_of_eq_transpose_mul_self hP]
  abel

/-- The trace of a product of two matrices of the form `Xᵀ * X` is
non-negative (both are then symmetric idempotent forms). -/
theorem trace_mul_nonneg_of_gram {a : ℕ} {P Q : Matrix (Fin a) (Fin a) K}
    (hP : P = Pᵀ * P) (hQ : Q = Qᵀ * Q) : 0 ≤ Matrix.trace (P * Q) := by
  have h1 : Matrix.trace (P * Q) = Matrix.trace ((Q * Pᵀ)ᵀ * (Q * Pᵀ)) := by
    conv_lhs => rw [hP, hQ]
    rw [Matrix.mul_assoc, Matrix.trace_mul_comm]
    congr 1
    rw [Matrix.transpose_mul, Matrix.transpose_transpose]
    simp only [Matrix.mul_assoc]
  rw [h1]
  exact trace_transpose_mul_self_nonneg _

/-- Squared Frobenius norm of `P * diagonal D * Qᵀ` when `P` and `Q` have
orthonormal columns. -/
theorem frobSq_triple {a b s : ℕ} (P : Mat K a s) (D : Fin s → K) (Q : Mat K b s)
    (hP : Pᵀ * P = 1) (hQ : Qᵀ * Q = 1) :
    frobSq (P * Matrix.diagonal D * Qᵀ) = ∑ t, (D t)^2 := by
  rw [frobSq_eq_trace]
  have h1 : (P * Matrix.diagonal D * Qᵀ)ᵀ = Q * Matrix.diagonal D * Pᵀ := by
    rw [Matrix.transpose_mul, Matrix.transpose_mul, Matrix.transpose_transpose,
      Matrix.diagonal_transpose, Matrix.mul_assoc]
  rw [h1]
  have h2 : Q * Matrix.diagonal D * Pᵀ * (P * Matrix.diagonal D * Qᵀ)
      = Q * (Matrix.diagonal D * Matrix.diagonal D) * Qᵀ := by
    simp only [Matrix.mul_assoc]
    congr 2
    rw [← Matrix.mul_assoc Pᵀ P, hP, Matrix.one_mul]
  rw [h2, Matrix.trace_mul_comm, ← Matrix.mul_assoc, hQ, Matrix.one_mul,
    Matrix.diagonal_mul_diagonal, Matrix.trace_diagonal]
  exact Finset.sum_congr rfl fun t _ => (sq (D t)).symm

/-- Dropped columns of a matrix with orthonormal columns are again
orthonormal. -/
theorem dropCols_transpose_mul_dropCols {a b : ℕ} (M : Mat K a b) (c : ℕ)
    (hM : Mᵀ * M = 1) : (dropCols M c)ᵀ * dropCols M c = 1 := by
  ext i j
  have hib : c + (i : ℕ) < b := by have := i.isLt; omega
  have hjb : c + (j : ℕ) < b := by have := j.isLt; omega
  have h1 : (Mᵀ * M) ⟨c + (i : ℕ), hib⟩ ⟨c + (j : ℕ), hjb⟩
      = (1 : Matrix (Fin (b - c)) (Fin (b - c)) K) i j := by
    rw [hM]
    by_cases hij : i = j
    · subst hij
      rw [Matrix.one_apply_eq, Matrix.one_apply_eq]
    · rw [Matrix.one_apply_ne (Fin.ne_of_val_ne (show c + (i : ℕ) ≠ c + (j : ℕ) by
        have : (i : ℕ) ≠ (j : ℕ) := fun hv => hij (Fin.ext hv)
        omega)), Matrix.one_apply_ne hij]
  rw [Matrix.mul_apply] at h1 ⊢
  rw [← h1]
  exact Finset.sum_congr rfl fun r _ => by
    simp [dropCols, Matrix.transpose_apply]

/-- Multiplying by a symmetric idempotent complement `1 - P` cannot increase
the squared Frobenius norm. -/
theorem frobSq_compl_mul_le {a b : ℕ} {P : Matrix (Fin a) (Fin a) K}
    (hP : P = Pᵀ * P) (M : Mat K a b) :
    frobSq ((1 - P) * M) ≤ frobSq M := by
  have hkey : frobSq M - frobSq ((1 - P) * M) = Matrix.trace ((P * M)ᵀ * (P * M)) := by
    rw [frobSq_eq_trace, frobSq_eq_trace]
    have h1 : ((1 - P) * M)ᵀ * ((1 - P) * M) = Mᵀ * ((1 - P) * M) := by
      rw [Matrix.transpose_mul, Matrix.mul_assoc, ← Matrix.mul_assoc (1 - P)ᵀ (1 - P) M,
        ← compl_eq_transpose_mul_self hP]
    rw [h1]
    have h2 : (P * M)ᵀ * (P * M) = Mᵀ * (P * M) := by
      rw [Matrix.transpose_mul, Matrix.mul_assoc, ← Matrix.mul_assoc Pᵀ P M, ← hP]
    rw [h2]
    rw [Matrix.sub_mul, Matrix.one_mul, Matrix.mul_sub, Matrix.trace_sub]
    abel
  have h3 : 0 ≤ frobSq M - frobSq ((1 - P) * M) := by
    rw [hkey]
    exact trace_transpose_mul_self_nonneg _
  linarith

/-- Expansion of the squared Frobenius norm after projecting away `P`. -/
theorem frobSq_compl_mul {a b : ℕ} {P : Matrix (Fin a) (Fin a) K}
    (hP : P = Pᵀ * P) (M : Mat K a b) :
    frobSq ((1 - P) * M) = frobSq M - Matrix.trace (Mᵀ * P * M) := by
  rw [frobSq_eq_trace, frobSq_eq_trace]
  have h1 : ((1 - P) * M)ᵀ * ((1 - P) * M) = Mᵀ * ((1 - P) * M) := by
    rw [Matrix.transpose_mul, Matrix.mul_assoc, ← Matrix.mul_assoc (1 - P)ᵀ (1 - P) M,
      ← compl_eq_transpose_mul_self hP]
  rw [h1, Matrix.sub_mul, Matrix.one_mul, Matrix.mul_sub, Matrix.trace_sub,
    Matrix.mul_assoc]

/-- The key scalar inequality behind the rank-constrained optimality: a descending non-negative
sequence, averaged with weights in `[0, 1]` of total mass at most `kk`, is
bounded by the sum of its first `kk` terms. -/
theorem weighted_sum_le (mm kk : ℕ) (hk : kk ≤ mm) (F G : ℕ → K)
    (hF0 : ∀ t, t < mm → 0 ≤ F t)
    (hFanti : ∀ s t, s ≤ t → t < mm → F t ≤ F s)
    (hG0 : ∀ t, t < mm → 0 ≤ G t) (hG1 : ∀ t, t < mm → G t ≤ 1)
    (hGs : ∑ t ∈ Finset.range mm, G t ≤ (kk : K)) :
    ∑ t ∈ Finset.range mm, F t * G t ≤ ∑ t ∈ Finset.range kk, F t := by
  rcases eq_or_lt_of_le hk with heq | hlt
  · subst heq
    refine Finset.sum_le_sum fun t ht => ?_
    have ht' := Finset.mem_range.mp ht
    calc F t * G t ≤ F t * 1 :=
          mul_le_mul_of_nonneg_left (hG1 t ht') (hF0 t ht')
    _ = F t := mul_one _
  · set c := F kk with hc
    have hc0 : 0 ≤ c := hF0 kk hlt
    have hsplitFG : ∑ t ∈ Finset.range mm, F t * G t
        = ∑ t ∈ Finset.range kk, F t * G t
          + ∑ t ∈ Finset.Ico kk mm, F t * G t := by
      rw [Finset.range_eq_Ico]
      exact (Finset.sum_Ico_consecutive _ (Nat.zero_le kk) (le_of_lt hlt)).symm
    have hsplitG : ∑ t ∈ Finset.range mm, G t
        = ∑ t ∈ Finset.range kk, G t + ∑ t ∈ Finset.Ico kk mm, G t := by
      rw [Finset.range_eq_Ico]
      exact (Finset.sum_Ico_consecutive _ (Nat.zero_le kk) (le_of_lt hlt)).symm
    have htail : ∑ t ∈ Finset.Ico kk mm, F t * G t
        ≤ c * ((kk : K) - ∑ t ∈ Finset.range kk, G t) := by
      have h1 : ∑ t ∈ Finset.Ico kk mm, F t * G t
          ≤ ∑ t ∈ Finset.Ico kk mm, c * G t := by
        refine Finset.sum_le_sum fun t ht => ?_
        obtain ⟨ht1, ht2⟩ := Finset.mem_Ico.mp ht
        exact mul_le_mul_of_nonneg_right (hFanti kk t ht1 ht2) (hG0 t ht2)
      have h2 : ∑ t ∈ Finset.Ico kk mm, c * G t
          = c * ∑ t ∈ Finset.Ico kk mm, G t := by
        rw [Finset.mul_sum]
      have h3 : ∑ t ∈ Finset.Ico kk mm, G t
          ≤ (kk : K) - ∑ t ∈ Finset.range kk, G t := by
        have := hGs
        rw [hsplitG] at this
        linarith
      calc ∑ t ∈ Finset.Ico kk mm, F t * G t
          ≤ c * ∑ t ∈ Finset.Ico kk mm, G t := h1.trans (le_of_eq h2)
      _ ≤ c * ((kk : K) - ∑ t ∈ Finset.range kk, G t) :=
          mul_le_mul_of_nonneg_left h3 hc0
    have hhead : ∑ t ∈ Finset.range kk, F t * G t
        - c * ∑ t ∈ Finset.range kk, G t
        ≤ ∑ t ∈ Finset.range kk, F t - (kk : K) * c := by
      have h4 : ∑ t ∈ Finset.range kk, (F t * G t - c * G t)
          ≤ ∑ t ∈ Finset.range kk, (F t - c) := by
        refine Finset.sum_le_sum fun t ht => ?_
        have ht' := Finset.mem_range.mp ht
        have htm : t < mm := lt_trans ht' hlt
        have hFc : 0 ≤ F t - c := sub_nonneg.mpr (hFanti t kk (le_of_lt ht') hlt)
        calc F t * G t - c * G t = (F t - c) * G t := by ring
        _ ≤ (F t - c) * 1 := mul_le_mul_of_nonneg_left (hG1 t htm) hFc
        _ = F t - c := mul_one _
      have h5 : ∑ t ∈ Finset.range kk, (F t * G t - c * G t)
          = ∑ t ∈ Finset.range kk, F t * G t - c * ∑ t ∈ Finset.range kk, G t := by
        rw [Finset.sum_sub_distrib, Finset.mul_sum]
      have h6 : ∑ t ∈ Finset.range kk, (F t - c)
          = ∑ t ∈ Finset.range kk, F t - (kk : K) * c := by
        rw [Finset.sum_sub_distrib, Finset.sum_const, Finset.card_range,
          nsmul_eq_mul]
      rw [h5, h6] at h4
      exact h4
    rw [hsplitFG]
    linarith [hhead, htail]

theorem sum_fin_eq_sum_range_padVec {b : ℕ} (f : Fin b → K) :
    ∑ t, f t = ∑ t ∈ Finset.range b, padVec f t := by
  rw [← Fin.sum_univ_eq_sum_range (padVec f) b]
  exact Finset.sum_congr rfl fun t _ => by simp [padVec, t.isLt]

theorem E_mul_EtE {a k : ℕ} (E : Mat K a k)
    (ho : ∀ t t' : Fin k, t ≠ t' → ∑ i, E i t * E i t' = 0)
    (hn : ∀ t : Fin k, (∑ i, E i t * E i t = 1) ∨ ∀ i, E i t = 0) :
    E * (Eᵀ * E) = E := by
  ext i t
  rw [Matrix.mul_apply]
  rw [Finset.sum_eq_single t (fun t' _ ht' => ?side) (by simp)]
  case side =>
    have hz : (Eᵀ * E) t' t = 0 := by
      rw [Matrix.mul_apply]
      simp only [Matrix.transpose_apply]
      exact ho t' t ht'
    rw [hz, mul_zero]
  rcases hn t with h1 | h0
  · have he : (Eᵀ * E) t t = 1 := by
      rw [Matrix.mul_apply]
      simp only [Matrix.transpose_apply]
      exact h1
    rw [he, mul_one]
  · rw [h0 i]
    exact zero_mul _

theorem EEt_gram {a k : ℕ} (E : Mat K a k)
    (ho : ∀ t t' : Fin k, t ≠ t' → ∑ i, E i t * E i t' = 0)
    (hn : ∀ t : Fin k, (∑ i, E i t * E i t = 1) ∨ ∀ i, E i t = 0) :
    E * Eᵀ = (E * Eᵀ)ᵀ * (E * Eᵀ) :=
  calc E * Eᵀ = (E * (Eᵀ * E)) * Eᵀ := by rw [E_mul_EtE E ho hn]
  _ = (E * Eᵀ) * (E * Eᵀ) := by simp only [Matrix.mul_assoc]
  _ = (E * Eᵀ)ᵀ * (E * Eᵀ) := by rw [Matrix.transpose_mul, Matrix.transpose_transpose]

theorem trace_EEt_le {a k : ℕ} (E : Mat K a k)
    (hn : ∀ t : Fin k, (∑ i, E i t * E i t = 1) ∨ ∀ i, E i t = 0) :
    Matrix.trace (E * Eᵀ) ≤ (k : K) := by
  rw [Matrix.trace_mul_comm, Matrix.trace]
  have hb : ∀ t : Fin k, (Eᵀ * E).diag t ≤ 1 := by
    intro t
    rw [Matrix.diag_apply, Matrix.mul_apply]
    simp only [Matrix.transpose_apply]
    rcases hn t with h1 | h0
    · rw [h1]
    · rw [Finset.sum_eq_zero fun r _ => by rw [h0 r, mul_zero]]
      exact zero_le_one
  calc ∑ t, (Eᵀ * E).diag t ≤ ∑ _t : Fin k, (1 : K) :=
        Finset.sum_le_sum fun t _ => hb t
  _ = (k : K) := by
    rw [Finset.sum_const, Finset.card_univ, Fintype.card_fin, nsmul_eq_mul, mul_one]

theorem eq_E_mul_of_span {a k : ℕ} (C E : Mat K a k)
    (hsp : ∀ j : Fin k, ∃ w : Fin k → K, ∀ i, C i j = ∑ t, w t * E i t) :
    ∃ G : Matrix (Fin k) (Fin k) K, C = E * G := by
  classical
  refine ⟨fun t j => (hsp j).choose t, ?_⟩
  ext i j
  rw [Matrix.mul_apply, (hsp j).choose_spec i]
  exact Finset.sum_congr rfl fun t _ => mul_comm _ _

theorem P_mul_of_span {a k : ℕ} (C E : Mat K a k)
    (ho : ∀ t t' : Fin k, t ≠ t' → ∑ i, E i t * E i t' = 0)
    (hn : ∀ t : Fin k, (∑ i, E i t * E i t = 1) ∨ ∀ i, E i t = 0)
    (hsp : ∀ j : Fin k, ∃ w : Fin k → K, ∀ i, C i j = ∑ t, w t * E i t) :
    (E * Eᵀ) * C = C := by
  obtain ⟨G, hG⟩ := eq_E_mul_of_span C E hsp
  rw [hG]
  calc (E * Eᵀ) * (E * G) = (E * (Eᵀ * E)) * G := by simp only [Matrix.mul_assoc]
  _ = E * G := by rw [E_mul_EtE E ho hn]

theorem UUt_gram {a s : ℕ} (U : Mat K a s) (hU : Uᵀ * U = 1) :
    U * Uᵀ = (U * Uᵀ)ᵀ * (U * Uᵀ) := by
  rw [Matrix.transpose_mul, Matrix.transpose_transpose]
  conv_rhs => rw [Matrix.mul_assoc, ← Matrix.mul_assoc Uᵀ U Uᵀ, hU, Matrix.one_mul]

theorem diag_conj_nonneg {a s : ℕ} (U : Mat K a s)
    {P : Matrix (Fin a) (Fin a) K} (hP : P = Pᵀ * P) (t : Fin s) :
    0 ≤ (Uᵀ * P * U) t t := by
  have h1 : Uᵀ * P * U = (P * U)ᵀ * (P * U) := by
    calc Uᵀ * P * U = Uᵀ * (Pᵀ * P) * U := by rw [← hP]
    _ = (P * U)ᵀ * (P * U) := by
      rw [Matrix.transpose_mul]
      simp only [Matrix.mul_assoc]
  rw [h1]
  exact diag_transpose_mul_self_nonneg _ _

theorem diag_conj_le_one {a s : ℕ} (U : Mat K a s) (hU : Uᵀ * U = 1)
    {P : Matrix (Fin a) (Fin a) K} (hP : P = Pᵀ * P) (t : Fin s) :
    (Uᵀ * P * U) t t ≤ 1 := by
  have h2 : Uᵀ * (1 - P) * U = 1 - Uᵀ * P * U := by
    rw [Matrix.mul_sub, Matrix.mul_one, Matrix.sub_mul, hU]
  have h3 := diag_conj_nonneg U (compl_eq_transpose_mul_self hP) t
  rw [h2, Matrix.sub_apply, Matrix.one_apply_eq] at h3
  linarith

theorem trace_conj_le {a s : ℕ} (U : Mat K a s) (hU : Uᵀ * U = 1)
    {P : Matrix (Fin a) (Fin a) K} (hP : P = Pᵀ * P) {c : K}
    (htr : Matrix.trace P ≤ c) : Matrix.trace (Uᵀ * P * U) ≤ c := by
  have hQ := compl_eq_transpose_mul_self (UUt_gram U hU)
  have h1 : Matrix.trace (Uᵀ * P * U) = Matrix.trace (P * (U * Uᵀ)) := by
    rw [Matrix.trace_mul_comm (Uᵀ * P) U, ← Matrix.mul_assoc U Uᵀ P,
      Matrix.trace_mul_comm (U * Uᵀ) P]
  have h2 : 0 ≤ Matrix.trace (P * (1 - U * Uᵀ)) := trace_mul_nonneg_of_gram hP hQ
  have h3 : Matrix.trace (P * (1 - U * Uᵀ))
      = Matrix.trace P - Matrix.trace (P * (U * Uᵀ)) := by
    rw [Matrix.mul_sub, Matrix.mul_one, Matrix.trace_sub]
  rw [h1]
  linarith

theorem trace_WtPW {a b s : ℕ} (U : Mat K a s) (S : Fin s → K) (V : Mat K b s)
    (hV : Vᵀ * V = 1) (P : Matrix (Fin a) (Fin a) K) :
    Matrix.trace ((U * Matrix.diagonal S * Vᵀ)ᵀ * P * (U * Matrix.diagonal S * Vᵀ))
      = ∑ t, (S t)^2 * (Uᵀ * P * U) t t := by
  have h1 : (U * Matrix.diagonal S * Vᵀ)ᵀ * P * (U * Matrix.diagonal S * Vᵀ)
      = V * (Matrix.diagonal S * (Uᵀ * P * U) * Matrix.diagonal S) * Vᵀ := by
    rw [Matrix.transpose_mul, Matrix.transpose_mul, Matrix.transpose_transpose,
      Matrix.diagonal_transpose]
    simp only [Matrix.mul_assoc]
  rw [h1, Matrix.trace_mul_comm, ← Matrix.mul_assoc, hV, Matrix.one_mul, Matrix.trace]
  refine Finset.sum_congr rfl fun t _ => ?_
  rw [Matrix.diag_apply, Matrix.mul_assoc, Matrix.diagonal_mul, Matrix.mul_diagonal]
  ring

theorem frobSq_sub_W_k {q l m : ℕ} {W : Mat K q l} {U : Mat K q m}
    {S : Fin m → K} {V : Mat K l m}
    (hW : W = U * Matrix.diagonal S * Vᵀ) (hU : Uᵀ * U = 1) (hV : Vᵀ * V = 1)
    (c : ℕ) (hc : c ≤ m) :
    frobSq (W - W_k U S V c) = ∑ t ∈ Finset.Ico c m, (padVec S t)^2 := by
  have hT : W - W_k U S V c
      = U_l U c * Matrix.diagonal (dropVec S c) * (V_l V c)ᵀ := by
    rw [svd_split hW c hc, add_sub_cancel_left]
  rw [hT, frobSq_triple (U_l U c) (dropVec S c) (V_l V c)
    (by simpa [U_l] using dropCols_transpose_mul_dropCols U c hU)
    (by simpa [V_l] using dropCols_transpose_mul_dropCols V c hV)]
  calc ∑ t, (dropVec S c t)^2
      = ∑ t ∈ Finset.range (m - c), (padVec S (c + t))^2 := by
        rw [← Fin.sum_univ_eq_sum_range (fun t => (padVec S (c + t))^2) (m - c)]
        refine Finset.sum_congr rfl fun t _ => ?_
        have ht : c + (t : ℕ) < m := by have := t.isLt; omega
        simp [dropVec, padVec, ht]
  _ = ∑ t ∈ Finset.Ico c m, (padVec S t)^2 :=
      (Finset.sum_Ico_eq_sum_range (fun t => (padVec S t)^2) c m).symm

end Frobenius

section Claims

variable {K : Type} [LinearOrderedField K] {q l n m : ℕ}

/-- The concrete factors form an SVD of `Ww`. -/
theorem isSVD_w : IsSVD Ww Uw Sw Vw := by
  constructor
  · decide
  · ext i j
    simp [Ww, Uw, Sw, Vw, Matrix.mul_apply, Fin.sum_univ_succ]
  · ext i j
    simp [Uw, Matrix.mul_apply, Fin.sum_univ_succ, Matrix.one_apply, Fin.eq_zero i,
      Fin.eq_zero j]
  · ext i j
    simp [Vw, Matrix.mul_apply, Fin.sum_univ_succ, Matrix.one_apply, Fin.eq_zero i,
      Fin.eq_zero j]
  · intro i
    simp [Sw]
  · intro i j _
    simp [Sw]

/-- Claim C1: for every valid input (`0 ≤ k ≤ min q l`, economy SVD size), the
LAP stage computes `residual = Y - X * W_k`, and each refined singular value
is the ratio of the corresponding diagonal entries of
`A = U_lᵗ (Xᵗ residual) V_l` and `B = U_lᵗ (Xᵗ X) U_l` exactly as the spec
states, using only those diagonal entries. -/
theorem claim_C1 (U : Mat K q m) (S : Fin m → K) (V : Mat K l m)
    (X : Mat K n q) (Y : Mat K n l) (k : ℤ)
    (_hm : m = min q l) (_hk0 : 0 ≤ k) (_hk1 : k ≤ (m : ℤ)) :
    residual U S V X Y (sliceLen m k) = Y - X * W_k U S V (sliceLen m k) ∧
    ∀ i, sigma_refined U S V X Y (sliceLen m k) i
        = AmatSpec U S V X Y (sliceLen m k) i i / BmatSpec X U (sliceLen m k) i i := by
  refine ⟨rfl, fun i => ?_⟩
  have hA : Amat U S V X Y (sliceLen m k) = AmatSpec U S V X Y (sliceLen m k) := by
    simp only [Amat, AmatSpec, Matrix.mul_assoc]
  have hB : Bmat X U (sliceLen m k) = BmatSpec X U (sliceLen m k) := by
    simp only [Bmat, BmatSpec, Matrix.mul_assoc]
  rw [sigma_refined, hA, hB]

/-- Witness for C1 at a concrete valid input (`q = l = n = m = 1`, `k = 0`). -/
theorem claim_C1_witness :
    residual Uw Sw Vw Xw Yw (sliceLen 1 0) = Yw - Xw * W_k Uw Sw Vw (sliceLen 1 0) ∧
    ∀ i, sigma_refined Uw Sw Vw Xw Yw (sliceLen 1 0) i
      = AmatSpec Uw Sw Vw Xw Yw (sliceLen 1 0) i i / BmatSpec Xw Uw (sliceLen 1 0) i i :=
  claim_C1 Uw Sw Vw Xw Yw 0 (by decide) (by decide) (by decide)

/-- Claim C4: when `k = min q l` the residual subspace is empty, the function
completes (it is total, and all residual-side factors are empty matrices whose
products contribute nothing) and returns exactly the matrix reconstructed by
the SVD factorization, i.e. `W_noisy` in exact arithmetic. -/
theorem claim_C4 {W : Mat K q l} {U : Mat K q m} {S : Fin m → K} {V : Mat K l m}
    (X : Mat K n q) (Y : Mat K n l) (h : IsSVD W U S V) (k : ℤ)
    (hk : k = ((min q l : ℕ) : ℤ)) :
    lip U S V X Y k = W := by
  subst hk
  rw [← h.msize]
  simp only [lip, sliceLen_self]
  have h2 := svd_split h.factor m le_rfl
  rw [middle_zero (Nat.sub_self _), add_zero] at h2
  rw [W_refined, middle_zero (Nat.sub_self _), add_zero]
  exact h2.symm

/-- Witness for C4 at the concrete input (`q = l = n = m = 1`, identity SVD,
`k = min 1 1`). -/
theorem claim_C4_witness : lip Uw Sw Vw Xw Yw ((min 1 1 : ℕ) : ℤ) = Ww :=
  claim_C4 Xw Yw isSVD_w _ rfl

/-- Claim C5: with `k = 0` the preserved term `W_k` is the zero matrix and the
returned matrix is exactly the re-estimated residual term
`U_l * S_l_refined * V_lᵀ`. -/
theorem claim_C5 (U : Mat K q m) (S : Fin m → K) (V : Mat K l m)
    (X : Mat K n q) (Y : Mat K n l) :
    W_k U S V (sliceLen m 0) = 0 ∧
    lip U S V X Y 0
      = U_l U (sliceLen m 0) * S_l_refined U S V X Y (sliceLen m 0)
        * (V_l V (sliceLen m 0))ᵀ := by
  have hc : min (sliceLen m 0) m = 0 := by
    have h0 : sliceLen m 0 = 0 := by simp [sliceLen]
    omega
  have hW : W_k U S V (sliceLen m 0) = 0 := by
    rw [W_k, S_k]
    exact middle_zero hc _ _ _
  exact ⟨hW, by rw [lip, W_refined, hW, zero_add]⟩

/-- Claim C8: the value returned by `lip` is a total `q × l` matrix of scalars
(in the embedding the shape is a type-level fact: the result is a function on
`Fin q × Fin l`, exactly the shape of `W_noisy`). -/
theorem claim_C8 (U : Mat K q m) (S : Fin m → K) (V : Mat K l m)
    (X : Mat K n q) (Y : Mat K n l) (k : ℤ) :
    ∃ f : Fin q → Fin l → K, lip U S V X Y k = Matrix.of f :=
  ⟨fun i j => lip U S V X Y k i j, rfl⟩

/-- Claim C9: an integer `k` strictly greater than `min q l` raises no error;
the slices silently clamp to all components, and the result is exactly the
result for `k = min q l`. -/
theorem claim_C9 (U : Mat K q m) (S : Fin m → K) (V : Mat K l m)
    (X : Mat K n q) (Y : Mat K n l) (k : ℤ)
    (hm : m = min q l) (hk : ((min q l : ℕ) : ℤ) < k) :
    lip U S V X Y k = lip U S V X Y ((min q l : ℕ) : ℤ) := by
  subst hm
  simp only [lip]
  rw [sliceLen_of_lt _ _ hk, sliceLen_self]

/-- Witness for C9: at `q = l = n = m = 1`, calling with `k = 5 > 1` returns
the `k = min 1 1` result. -/
theorem claim_C9_witness :
    lip Uw Sw Vw Xw Yw 5 = lip Uw Sw Vw Xw Yw ((min 1 1 : ℕ) : ℤ) :=
  claim_C9 Uw Sw Vw Xw Yw 5 (by decide) (by decide)

/-- Claim C7: for a valid input, the returned matrix differs from `W_noisy`
only within the noise subspace: the difference is `U_l * D * V_lᵀ` for some
`r × r` matrix `D`, and equivalently its compression onto the preserved
subspace `U_kᵗ * (W_refined - W_noisy) * V_k` is the zero matrix. -/
theorem claim_C7 {W : Mat K q l} {U : Mat K q m} {S : Fin m → K} {V : Mat K l m}
    (X : Mat K n q) (Y : Mat K n l) (h : IsSVD W U S V) (k : ℤ)
    (_hk0 : 0 ≤ k) (_hk1 : k ≤ (m : ℤ)) :
    (∃ D : Matrix (Fin (m - sliceLen m k)) (Fin (m - sliceLen m k)) K,
      lip U S V X Y k - W
        = U_l U (sliceLen m k) * D * (V_l V (sliceLen m k))ᵀ) ∧
    (U_k U (sliceLen m k))ᵀ * (lip U S V X Y k - W) * V_k V (sliceLen m k) = 0 := by
  have hdiff : lip U S V X Y k - W
      = U_l U (sliceLen m k)
        * (S_l_refined U S V X Y (sliceLen m k)
            - Matrix.diagonal (dropVec S (sliceLen m k)))
        * (V_l V (sliceLen m k))ᵀ := by
    have h2 := svd_split h.factor (sliceLen m k) (sliceLen_le m k)
    rw [lip, W_refined]
    nth_rewrite 1 [h2]
    rw [add_sub_add_left_eq_sub, Matrix.mul_sub, Matrix.sub_mul]
  refine ⟨⟨_, hdiff⟩, ?_⟩
  have hz : (U_k U (sliceLen m k))ᵀ * U_l U (sliceLen m k) = 0 :=
    takeCols_transpose_mul_dropCols U (sliceLen m k) h.orthU
  rw [hdiff]
  simp only [← Matrix.mul_assoc]
  rw [hz, Matrix.zero_mul, Matrix.zero_mul, Matrix.zero_mul]

/-- Witness for C7 at the concrete input (`q = l = n = m = 1`, identity SVD,
`k = 0`). -/
theorem claim_C7_witness :
    (∃ D : Matrix (Fin (1 - sliceLen 1 0)) (Fin (1 - sliceLen 1 0)) ℚ,
      lip Uw Sw Vw Xw Yw 0 - Ww
        = U_l Uw (sliceLen 1 0) * D * (V_l Vw (sliceLen 1 0))ᵀ) ∧
    (U_k Uw (sliceLen 1 0))ᵀ * (lip Uw Sw Vw Xw Yw 0 - Ww) * V_k Vw (sliceLen 1 0) = 0 :=
  claim_C7 Xw Yw isSVD_w 0 (by decide) (by decide)

/-- Claim C2 evidence: at the concrete input `W_noisy = [[1]]` (SVD `Uw, Sw,
Vw`), `X = [[0]]`, `Y = [[1]]`, `k = 0`, the diagonal of `B` is zero — and `A`
is zero as well, so the source's unguarded `A[i,i] / B[i,i]` is a silent
`0 / 0` (`nan` in torch); `lip` contains no detection of this condition. -/
theorem claim_C2 :
    Bmat Xz Uw (sliceLen 1 0) = 0 ∧ Amat Uw Sw Vw Xz Yw (sliceLen 1 0) = 0 := by
  constructor
  · rw [Bmat]
    show (U_l Uw 0)ᵀ * ((0 : Mat ℚ 1 1)ᵀ * ((0 : Mat ℚ 1 1) * U_l Uw 0)) = 0
    rw [Matrix.zero_mul, Matrix.mul_zero, Matrix.mul_zero]
  · rw [Amat]
    show (U_l Uw 0)ᵀ * ((0 : Mat ℚ 1 1)ᵀ * residual Uw Sw Vw Xz Yw 0) * V_l Vw 0 = 0
    rw [Matrix.transpose_zero, Matrix.zero_mul, Matrix.mul_zero, Matrix.zero_mul]

/-- Claim C3 evidence: `lip` performs no input validation; a negative rank
parameter `k = -1` raises no error and is silently reinterpreted by Python
slicing (`U[:, :-1]` drops one column), so at a concrete `1 × 1` input the
call returns exactly the `k = 0` result instead of failing fast. -/
theorem claim_C3 : lip Uw Sw Vw Xw Yw (-1) = lip Uw Sw Vw Xw Yw 0 := rfl

/-- Claim C10: `lip` never mutates its arguments — after the call the caller's
`W_noisy`, `X` and `Y` are unchanged. -/
theorem claim_C10 (s : CallState K q l n) (U : Mat K q m) (S : Fin m → K)
    (V : Mat K l m) (k : ℤ) :
    (lipCall s U S V k).1.W_noisy = s.W_noisy ∧
    (lipCall s U S V k).1.X = s.X ∧ (lipCall s U S V k).1.Y = s.Y :=
  ⟨rfl, rfl, rfl⟩

end Claims

section EckartYoung

/-- Every real `a × k` matrix factors through a family of `k` pairwise
orthogonal columns, each of unit length or zero, spanning its column space
(Gram-Schmidt orthonormalization; zero columns absorb linear dependence). -/
theorem exists_orthonormal_factor {a k : ℕ} (C : Mat ℝ a k) :
    ∃ E : Mat ℝ a k,
      (∀ t t' : Fin k, t ≠ t' → ∑ i, E i t * E i t' = 0) ∧
      (∀ t : Fin k, (∑ i, E i t * E i t = 1) ∨ ∀ i, E i t = 0) ∧
      (∀ j : Fin k, ∃ w : Fin k → ℝ, ∀ i, C i j = ∑ t, w t * E i t) := by
  classical
  haveI : WellFoundedLT (Fin k) := inferInstance
  let f : Fin k → EuclideanSpace ℝ (Fin a) :=
    fun j => (WithLp.equiv 2 (Fin a → ℝ)).symm (fun i => C i j)
  let g : Fin k → EuclideanSpace ℝ (Fin a) := gramSchmidt ℝ f
  let e : Fin k → EuclideanSpace ℝ (Fin a) := gramSchmidtNormed ℝ f
  have hip : ∀ x y : EuclideanSpace ℝ (Fin a),
      (inner x y : ℝ) = ∑ i, x i * y i := by
    intro x y
    rw [PiLp.inner_apply]
    refine Finset.sum_congr rfl fun i _ => ?_
    rw [RCLike.inner_apply, conj_trivial]
  refine ⟨fun i t => e t i, ?_, ?_, ?_⟩
  · intro t t' htt
    rw [← hip (e t) (e t')]
    show (inner (gramSchmidtNormed ℝ f t) (gramSchmidtNormed ℝ f t') : ℝ) = 0
    rw [gramSchmidtNormed, gramSchmidtNormed]
    rw [real_inner_smul_left, real_inner_smul_right]
    rw [gramSchmidt_orthogonal ℝ f htt]
    ring
  · intro t
    by_cases h0 : e t = 0
    · right
      intro i
      show e t i = 0
      rw [h0]
      rfl
    · left
      have h1 : ‖e t‖ = 1 := gramSchmidtNormed_unit_length' h0
      have h2 : (inner (e t) (e t) : ℝ) = 1 := by
        rw [real_inner_self_eq_norm_sq, h1]
        norm_num
      rw [← hip (e t) (e t)]
      exact h2
  · intro j
    have hmem : f j ∈ Submodule.span ℝ (Set.range e) := by
      have h1 : f j ∈ Submodule.span ℝ (Set.range g) := by
        rw [span_gramSchmidt]
        exact Submodule.subset_span ⟨j, rfl⟩
      have h2 : Submodule.span ℝ (Set.range g) ≤ Submodule.span ℝ (Set.range e) := by
        rw [Submodule.span_le]
        rintro x ⟨t, rfl⟩
        by_cases hz : g t = 0
        · show g t ∈ _
          rw [hz]
          exact Submodule.zero_mem _
        · have hgt : g t = ‖g t‖ • e t := by
            show g t = ‖g t‖ • gramSchmidtNormed ℝ f t
            rw [gramSchmidtNormed, smul_smul]
            show g t = (‖g t‖ * ‖gramSchmidt ℝ f t‖⁻¹) • gramSchmidt ℝ f t
            rw [mul_inv_cancel₀ (norm_ne_zero_iff.mpr hz), one_smul]
          show g t ∈ _
          rw [hgt]
          exact Submodule.smul_mem _ _ (Submodule.subset_span ⟨t, rfl⟩)
      exact h2 h1
    obtain ⟨w, hw⟩ := (mem_span_range_iff_exists_fun ℝ).mp hmem
    refine ⟨w, fun i => ?_⟩
    have hCf : C i j = f j i := rfl
    rw [hCf, ← hw]
    have happ : ∀ s : Finset (Fin k),
        (∑ t ∈ s, w t • e t) i = ∑ t ∈ s, (w t • e t) i := by
      intro s
      induction s using Finset.induction with
      | empty =>
        rw [Finset.sum_empty, Finset.sum_empty]
        rfl
      | insert hx ih =>
        rw [Finset.sum_insert hx, Finset.sum_insert hx, PiLp.add_apply, ih]
    rw [happ Finset.univ]
    refine Finset.sum_congr rfl fun t _ => ?_
    rw [PiLp.smul_apply, smul_eq_mul]

/-- The heart of the Eckart-Young optimality: no matrix of rank at most `k`
(given as a product through `k` columns) comes closer to `W = U diag(S) Vᵀ`
in squared Frobenius norm than the tail energy of the singular spectrum. -/
theorem rank_le_frobSq_bound {q l m : ℕ} {W : Mat ℝ q l} {U : Mat ℝ q m}
    {S : Fin m → ℝ} {V : Mat ℝ l m}
    (hW : W = U * Matrix.diagonal S * Vᵀ) (hU : Uᵀ * U = 1) (hV : Vᵀ * V = 1)
    (hS0 : ∀ i, 0 ≤ S i) (hSanti : ∀ i j : Fin m, i ≤ j → S j ≤ S i)
    {k : ℕ} (hk : k ≤ m) (C : Mat ℝ q k) (R : Mat ℝ k l) :
    ∑ t ∈ Finset.Ico k m, (padVec S t)^2 ≤ frobSq (W - C * R) := by
  obtain ⟨E, ho, hn, hsp⟩ := exists_orthonormal_factor C
  have hPgram := EEt_gram E ho hn
  have h1 : frobSq ((1 - E * Eᵀ) * (W - C * R)) ≤ frobSq (W - C * R) :=
    frobSq_compl_mul_le hPgram _
  have hPC : (E * Eᵀ) * C = C := P_mul_of_span C E ho hn hsp
  have h2 : frobSq ((1 - E * Eᵀ) * (W - C * R)) = frobSq ((1 - E * Eᵀ) * W) := by
    have hz : (1 - E * Eᵀ) * (C * R) = 0 := by
      rw [Matrix.sub_mul, Matrix.one_mul, ← Matrix.mul_assoc, hPC, sub_self]
    rw [Matrix.mul_sub, hz, sub_zero]
  have h3 : frobSq ((1 - E * Eᵀ) * W)
      = frobSq W - Matrix.trace (Wᵀ * (E * Eᵀ) * W) :=
    frobSq_compl_mul hPgram W
  have h4 : frobSq W = ∑ t ∈ Finset.range m, (padVec S t)^2 := by
    rw [hW, frobSq_triple U S V hU hV,
      sum_fin_eq_sum_range_padVec (fun t => (S t)^2)]
    refine Finset.sum_congr rfl fun t ht => ?_
    have htm := Finset.mem_range.mp ht
    simp [padVec, htm]
  have h5 : Matrix.trace (Wᵀ * (E * Eᵀ) * W)
      = ∑ t ∈ Finset.range m,
          (padVec S t)^2 * padVec (fun t => (Uᵀ * (E * Eᵀ) * U) t t) t := by
    rw [hW, trace_WtPW U S V hV (E * Eᵀ),
      sum_fin_eq_sum_range_padVec (fun t => (S t)^2 * (Uᵀ * (E * Eᵀ) * U) t t)]
    refine Finset.sum_congr rfl fun t ht => ?_
    have htm := Finset.mem_range.mp ht
    simp [padVec, htm]
  have h6 : ∑ t ∈ Finset.range m,
        (padVec S t)^2 * padVec (fun t => (Uᵀ * (E * Eᵀ) * U) t t) t
      ≤ ∑ t ∈ Finset.range k, (padVec S t)^2 := by
    apply weighted_sum_le m k hk
    · intro t _
      exact sq_nonneg _
    · intro s t hst htm
      have hsm : s < m := lt_of_le_of_lt (by omega : s ≤ t) htm
      simp only [padVec]
      rw [dif_pos htm, dif_pos hsm]
      exact pow_le_pow_left₀ (hS0 _) (hSanti ⟨s, hsm⟩ ⟨t, htm⟩ (Fin.mk_le_mk.mpr hst)) 2
    · intro t htm
      simp only [padVec]
      rw [dif_pos htm]
      exact diag_conj_nonneg U hPgram _
    · intro t htm
      simp only [padVec]
      rw [dif_pos htm]
      exact diag_conj_le_one U hU hPgram _
    · calc ∑ t ∈ Finset.range m, padVec (fun t => (Uᵀ * (E * Eᵀ) * U) t t) t
          = ∑ t, (Uᵀ * (E * Eᵀ) * U) t t :=
            (sum_fin_eq_sum_range_padVec (fun t => (Uᵀ * (E * Eᵀ) * U) t t)).symm
      _ = Matrix.trace (Uᵀ * (E * Eᵀ) * U) := by
            rw [Matrix.trace]
            exact Finset.sum_congr rfl fun t _ => (Matrix.diag_apply _ t).symm
      _ ≤ (k : ℝ) := trace_conj_le U hU hPgram (trace_EEt_le E hn)
  have h7 : ∑ t ∈ Finset.range m, (padVec S t)^2
      = ∑ t ∈ Finset.range k, (padVec S t)^2
        + ∑ t ∈ Finset.Ico k m, (padVec S t)^2 := by
    rw [Finset.range_eq_Ico]
    exact (Finset.sum_Ico_consecutive _ (Nat.zero_le k) hk).symm
  linarith

/-- Claim C6: for every `0 ≤ k ≤ min q l`, the intermediate `W_k` computed by
`lip` has rank at most `k` (it factors through `k` columns) and is an optimal
rank-`k` approximation of `W_noisy` in Frobenius norm: no other product
through `k` columns is closer (squared Frobenius distances compared, which is
equivalent since both are non-negative). -/
theorem claim_C6 {q l m : ℕ} {W : Mat ℝ q l} {U : Mat ℝ q m} {S : Fin m → ℝ}
    {V : Mat ℝ l m} (h : IsSVD W U S V) (k : ℕ) (hk : k ≤ min q l) :
    (∃ C : Mat ℝ q k, ∃ R : Mat ℝ k l, W_k U S V (sliceLen m (k : ℤ)) = C * R) ∧
    ∀ (C : Mat ℝ q k) (R : Mat ℝ k l),
      frobSq (W - W_k U S V (sliceLen m (k : ℤ))) ≤ frobSq (W - C * R) := by
  have hkm : k ≤ m := by rw [h.msize]; exact hk
  have hck : sliceLen m (k : ℤ) = k := sliceLen_coe m k hkm
  constructor
  · refine ⟨fun i t => U i ⟨t.val, lt_of_lt_of_le t.isLt hkm⟩
        * S ⟨t.val, lt_of_lt_of_le t.isLt hkm⟩,
      fun t b => V b ⟨t.val, lt_of_lt_of_le t.isLt hkm⟩, ?_⟩
    ext i b
    rw [W_k_apply, hck, min_eq_left hkm, Matrix.mul_apply,
      ← Fin.sum_univ_eq_sum_range (svdTerm U S V i b) k]
    refine Finset.sum_congr rfl fun t _ => ?_
    have htm : (t : ℕ) < m := lt_of_lt_of_le t.isLt hkm
    simp only [svdTerm, dif_pos htm]
    ring
  · intro C R
    rw [frobSq_sub_W_k h.factor h.orthU h.orthV (sliceLen m (k : ℤ))
      (sliceLen_le m (k : ℤ)), hck]
    exact rank_le_frobSq_bound h.factor h.orthU h.orthV h.nonneg h.sorted hkm C R

/-- The concrete real factors form an SVD of `Wr`. -/
theorem isSVD_r : IsSVD Wr Ur Sr Vr := by
  constructor
  · decide
  · ext i j
    simp [Wr, Ur, Sr, Vr, Matrix.mul_apply, Fin.sum_univ_succ]
  · ext i j
    simp [Ur, Matrix.mul_apply, Fin.sum_univ_succ, Matrix.one_apply, Fin.eq_zero i,
      Fin.eq_zero j]
  · ext i j
    simp [Vr, Matrix.mul_apply, Fin.sum_univ_succ, Matrix.one_apply, Fin.eq_zero i,
      Fin.eq_zero j]
  · intro i
    simp [Sr]
  · intro i j _
    simp [Sr]

/-- Witness for C6 at the concrete input (`q = l = m = 1`, identity SVD,
`k = 1`, competitor `C * R = 0`). -/
theorem claim_C6_witness :
    (∃ C : Mat ℝ 1 1, ∃ R : Mat ℝ 1 1,
      W_k Ur Sr Vr (sliceLen 1 ((1 : ℕ) : ℤ)) = C * R) ∧
    frobSq (Wr - W_k Ur Sr Vr (sliceLen 1 ((1 : ℕ) : ℤ)))
      ≤ frobSq (Wr - (0 : Mat ℝ 1 1) * (0 : Mat ℝ 1 1)) :=
  ⟨(claim_C6 isSVD_r 1 (by decide)).1, (claim_C6 isSVD_r 1 (by decide)).2 0 0⟩

end EckartYoung

end LIP
